import Mathlib

/-
Verification of the encode-captioned-dataset pipeline of the dalle-mini
encoding notebooks (dev/encoding/vqgan-jax-encoding-streaming.ipynb and
dev/encoding/vqgan-jax-encoding-webdataset.ipynb).

The development shallowly embeds the logic that is original to the
repository: the caption builder create_caption, the integer-array
serialization produced by np.array2string with a comma separator and a
plain str integer formatter, the split file naming produced by the Python
format spec 05x, the batching of the prepared item stream at a fixed
superbatch size, and the stateful split-writer loop of
encode_captioned_dataset.  Python strings are embedded as List Char,
machine integers as Nat (all quantities involved are nonnegative and no
overflow-relevant arithmetic occurs in the source), and the on-disk
output directory as a function from split index to the list of records
currently stored in that split file.
-/

namespace DalleMini

/-- Characters removed by the Python str.strip method, restricted to the
ASCII whitespace characters (space, tab, newline, carriage return,
vertical tab, form feed) that can realistically occur in the caption
fields. -/
def pyIsSpace (c : Char) : Bool :=
  c = ' ' || c = '\t' || c = '\n' || c = '\r' || c = '\x0b' || c = '\x0c'

/-- Python str.strip: drop whitespace from both ends of the string. -/
def pyStrip (l : List Char) : List Char :=
  ((l.dropWhile pyIsSpace).reverse.dropWhile pyIsSpace).reverse

/-- The sentence-ending characters tested by create_caption: period,
exclamation mark, question mark. -/
def sentenceEnd (c : Char) : Bool := c = '.' || c = '!' || c = '?'

/-- Embedding of create_caption from both notebooks: strip the title and
the description; when the stripped title is nonempty and its last
character is not a sentence terminator, append a period to the title;
return the title and the description joined by a single space. -/
def create_caption (title description : List Char) : List Char :=
  let t := pyStrip title
  let d := pyStrip description
  let t2 :=
    match t.getLast? with
    | none => t
    | some c => if sentenceEnd c then t else t ++ ['.']
  t2 ++ ' ' :: d

/-- Decimal digit characters, used by the Python str rendering of an
integer. Input values above nine do not occur (callers pass values below
the base). -/
def decDigitChar (d : Nat) : Char :=
  match d with
  | 0 => '0' | 1 => '1' | 2 => '2' | 3 => '3' | 4 => '4'
  | 5 => '5' | 6 => '6' | 7 => '7' | 8 => '8' | 9 => '9'
  | _ => '*'

/-- Lowercase hexadecimal digit characters, used by the Python format
spec x. -/
def hexDigitChar (d : Nat) : Char :=
  match d with
  | 10 => 'a' | 11 => 'b' | 12 => 'c' | 13 => 'd' | 14 => 'e' | 15 => 'f'
  | e => decDigitChar e

/-- Value of a decimal digit character. -/
def decVal (c : Char) : Option Nat :=
  if '0' ≤ c ∧ c ≤ '9' then some (c.toNat - Char.toNat '0') else none

/-- Value of a lowercase hexadecimal digit character. -/
def hexVal (c : Char) : Option Nat :=
  if 'a' ≤ c ∧ c ≤ 'f' then some (c.toNat - Char.toNat 'a' + 10) else decVal c

/-- Positional rendering of a natural number in base b, most significant
digit first, with explicit fuel so that the definition is structurally
recursive and evaluates inside the kernel.  Any fuel above the input is
sufficient. -/
def toBaseAux (b : Nat) (digitF : Nat → Char) : Nat → Nat → List Char
  | 0, _ => []
  | fuel+1, n =>
    if n < b then [digitF n]
    else toBaseAux b digitF fuel (n / b) ++ [digitF (n % b)]

/-- Python str of a nonnegative integer: decimal rendering. -/
def natToDec (n : Nat) : List Char := toBaseAux 10 decDigitChar (n+1) n

/-- Python format spec x of a nonnegative integer: lowercase hexadecimal
rendering without padding. -/
def natToHex (n : Nat) : List Char := toBaseAux 16 hexDigitChar (n+1) n

/-- Left-to-right positional parse of a digit string in base b. -/
def parseBaseAux (b : Nat) (valF : Char → Option Nat) : Nat → List Char → Option Nat
  | acc, [] => some acc
  | acc, c :: cs =>
    match valF c with
    | some d => parseBaseAux b valF (acc * b + d) cs
    | none => none

/-- Parse a nonempty decimal digit string. -/
def parseNat (l : List Char) : Option Nat :=
  if l.isEmpty then none else parseBaseAux 10 decVal 0 l

/-- Parse a nonempty lowercase hexadecimal digit string. -/
def parseHex (l : List Char) : Option Nat :=
  if l.isEmpty then none else parseBaseAux 16 hexVal 0 l

/-- Join a list of character groups with a comma between consecutive
groups. -/
def commaJoin : List (List Char) → List Char
  | [] => []
  | [g] => g
  | g :: gs => g ++ ',' :: commaJoin gs

/-- The encoding string of a token sequence, as produced in
encode_captioned_dataset by np.array2string with separator comma, a
plain str integer formatter and a max_line_width of 50000: an opening
bracket, the decimal renderings of the tokens joined by commas, and a
closing bracket.  This is the single-line form the call produces
whenever the rendered line fits in max_line_width, which holds for every
token sequence the model can emit (at most 256 tokens, each below
16384, so at most 1537 characters). -/
def encodingString (tokens : List Nat) : List Char :=
  '[' :: (commaJoin (tokens.map natToDec) ++ [']'])

/-- Split a character list at every comma. -/
def splitComma : List Char → List (List Char)
  | [] => [[]]
  | c :: cs =>
    if c = ',' then [] :: splitComma cs
    else
      match splitComma cs with
      | [] => [[c]]
      | g :: gs => (c :: g) :: gs

/-- Parse every group as a decimal integer; fail when any group fails. -/
def mapParseNat : List (List Char) → Option (List Nat)
  | [] => some []
  | g :: gs =>
    match parseNat g, mapParseNat gs with
    | some v, some vs => some (v :: vs)
    | _, _ => none

/-- Decoder for the encoding field of a record: strip the surrounding
brackets, split the body at commas, and parse every group as a decimal
integer. -/
def parseEncoding (l : List Char) : Option (List Nat) :=
  match l with
  | '[' :: rest =>
    if rest.getLast? = some ']' then
      let body := rest.dropLast
      if body.isEmpty then some []
      else mapParseNat (splitComma body)
    else none
  | _ => none

/-- The Python format spec 05x: lowercase hexadecimal, left-padded with
zeros to a minimum width of five characters, never truncated. -/
def format05x (n : Nat) : List Char :=
  List.replicate (5 - (natToHex n).length) '0' ++ natToHex n

/-- The name of the output file for a split index, from the f-string in
encode_captioned_dataset. -/
def splitFileName (n : Nat) : List Char :=
  "split_".toList ++ format05x n ++ ".jsonl".toList

/-- A character is a lowercase hexadecimal digit exactly when hexVal
accepts it. -/
def isLowerHexDigit (c : Char) : Bool := (hexVal c).isSome

/-- Group a list into consecutive chunks of k elements, with explicit
fuel so that the definition is structurally recursive; the final chunk
may be shorter.  Fuel equal to the list length is sufficient when k is
at least one. -/
def chunkAux {α : Type} (k : Nat) : Nat → List α → List (List α)
  | 0, _ => []
  | fuel+1, l => if l.isEmpty then [] else l.take k :: chunkAux k fuel (l.drop k)

/-- The batching performed by the data loader (torch DataLoader with
batch_size k, and equivalently the webdataset batched k stage): the item
stream grouped into consecutive chunks of k items, the last chunk
possibly short. -/
def chunkList {α : Type} (k : Nat) (l : List α) : List (List α) :=
  chunkAux k l.length l

/-- A prepared item, as produced by prepare_item: key, caption and a
preprocessed image.  The image contents are never inspected by the writer, so the
image is embedded as an abstract identifier consumed by the token
encoder. -/
structure PreparedItem where
  key : String
  caption : String
  image : Nat
deriving DecidableEq, Repr

/-- One line of a split file, as assembled by the DataFrame written with
to_json using records orientation: the key, the caption, and the
encoding string. -/
structure Record where
  key : String
  caption : String
  encoding : List Char
deriving DecidableEq, Repr

/-- The record produced for one prepared item, given the token encoder E
(the pretrained model behind jax.pmap, external to this repository): the
key and caption pass through unchanged and the token sequence of the
image is serialized by encodingString. -/
def encodeItemRecord (E : Nat → List Nat) (it : PreparedItem) : Record :=
  ⟨it.key, it.caption, encodingString (E it.image)⟩

/-- Elementwise encoding of a batch stream: each batch of prepared items
becomes the batch of its records, in order (the DataFrame columns key,
caption and encoding are aligned by position). -/
def encodeBatches (E : Nat → List Nat) (batches : List (List PreparedItem)) :
    List (List Record) :=
  batches.map (List.map (encodeItemRecord E))

/-- State of the split writer: the currently open split index (none
models the Python variable file being None), the contents of every split
file on disk, the log of opened and closed split indices in order, and a
flag recording whether a write was ever attempted with no open file
(which would be a runtime error in the source). -/
structure WriterState where
  file : Option Nat
  fs : Nat → List Record
  opens : List Nat
  closes : List Nat
  errored : Bool

/-- Initial writer state over an arbitrary pre-existing output
directory. -/
def initState (fs0 : Nat → List Record) : WriterState :=
  { file := none, fs := fs0, opens := [], closes := [], errored := false }

/-- An empty output directory. -/
def emptyStore : Nat → List Record := fun _ => []

/-- The rotation check at the top of the loop body of
encode_captioned_dataset: when n is a multiple of save_every, close the
current file if one is open, then open the file for split index
n / save_every in write mode, which truncates any previous contents of
that file. -/
def rotateStep (save_every n : Nat) (st : WriterState) : WriterState :=
  if n % save_every = 0 then
    let st1 :=
      match st.file with
      | some i => { st with closes := st.closes ++ [i] }
      | none => st
    let i := n / save_every
    { st1 with
      file := some i
      fs := fun j => if j = i then [] else st1.fs j
      opens := st1.opens ++ [i] }
  else st

/-- The write at the bottom of the loop body: append the records of the
batch to the currently open file, in batch order.  With no open file the
source would raise; the embedding records this in the errored flag. -/
def appendBatch (b : List Record) (st : WriterState) : WriterState :=
  match st.file with
  | some i => { st with fs := fun j => if j = i then st.fs j ++ b else st.fs j }
  | none => { st with errored := true }

/-- One iteration of the loop of encode_captioned_dataset for batch
number n. -/
def processBatch (save_every : Nat) (st : WriterState) (n : Nat) (b : List Record) :
    WriterState :=
  appendBatch b (rotateStep save_every n st)

/-- The loop of encode_captioned_dataset starting from batch number n:
the enumerate counter is threaded explicitly. -/
def runFrom (save_every : Nat) : Nat → List (List Record) → WriterState → WriterState
  | _, [], st => st
  | n, b :: bs, st => runFrom save_every (n+1) bs (processBatch save_every st n b)

/-- Embedding of encode_captioned_dataset: fold the loop body over the
enumerated batch stream, starting with no open file.  The function
returns after the last batch without any further action, exactly as the
source does. -/
def encode_captioned_dataset (save_every : Nat) (batches : List (List Record))
    (st : WriterState) : WriterState :=
  runFrom save_every 0 batches st

/-- The number of split files a run over len batches opens: one for every
started group of save_every batches. -/
def numSplits (save_every len : Nat) : Nat := (len + save_every - 1) / save_every

/-- The split index holding the records of batch number n, together with
the no-file initial state: before batch 0 no file is open, afterwards
the file of the previous batch is open. -/
def fOf (s n : Nat) : Option Nat := if n = 0 then none else some ((n - 1) / s)

/-- The records assigned to split index i by the batches numbered from n
onwards: the concatenation, in arrival order, of the batches whose
number m satisfies m / s = i. -/
def recordsFor (s : Nat) : Nat → List (List Record) → Nat → List Record
  | _, [], _ => []
  | n, b :: bs, i => (if n / s = i then b else []) ++ recordsFor s (n+1) bs i

/-- The complete pipeline at record granularity: prepare items, group
them into superbatches of batch_size items, encode every batch with the
token encoder E, and drive the split writer over the encoded batches
into an empty output directory. -/
def runPipeline (E : Nat → List Nat) (batch_size save_every : Nat)
    (items : List PreparedItem) : WriterState :=
  encode_captioned_dataset save_every
    (encodeBatches E (chunkList batch_size items)) (initState emptyStore)

/-! ### Digit and base rendering lemmas -/

lemma decVal_decDigitChar {d : Nat} (h : d < 10) : decVal (decDigitChar d) = some d := by
  interval_cases d <;> decide

lemma hexVal_hexDigitChar {d : Nat} (h : d < 16) : hexVal (hexDigitChar d) = some d := by
  interval_cases d <;> decide

lemma parseBaseAux_append (b : Nat) (valF : Char → Option Nat) :
    ∀ (l1 l2 : List Char) (acc : Nat),
      parseBaseAux b valF acc (l1 ++ l2) =
        (parseBaseAux b valF acc l1).bind (fun a => parseBaseAux b valF a l2) := by
  intro l1
  induction l1 with
  | nil => intro l2 acc; simp [parseBaseAux]
  | cons c cs ih =>
    intro l2 acc
    simp only [List.cons_append, parseBaseAux]
    cases valF c with
    | none => simp
    | some d => simp [ih]

lemma toBaseAux_ne_nil (b : Nat) (digitF : Nat → Char) :
    ∀ fuel n, n < fuel → toBaseAux b digitF fuel n ≠ [] := by
  intro fuel n h
  cases fuel with
  | zero => omega
  | succ f =>
    simp only [toBaseAux]
    split <;> simp

lemma mem_toBaseAux (b : Nat) (digitF : Nat → Char) (hb : 0 < b) :
    ∀ fuel n c, c ∈ toBaseAux b digitF fuel n → ∃ d, d < b ∧ c = digitF d := by
  intro fuel
  induction fuel with
  | zero => intro n c hc; simp [toBaseAux] at hc
  | succ f ih =>
    intro n c hc
    simp only [toBaseAux] at hc
    by_cases hn : n < b
    · rw [if_pos hn] at hc
      simp at hc
      exact ⟨n, hn, hc⟩
    · rw [if_neg hn] at hc
      rcases List.mem_append.mp hc with h1 | h2
      · exact ih (n / b) c h1
      · simp at h2
        exact ⟨n % b, Nat.mod_lt n hb, h2⟩

lemma parse_toBaseAux (b : Nat) (digitF : Nat → Char) (valF : Char → Option Nat)
    (hb : 2 ≤ b) (hdig : ∀ d, d < b → valF (digitF d) = some d) :
    ∀ fuel n, n < fuel → ∀ acc,
      parseBaseAux b valF acc (toBaseAux b digitF fuel n) =
        some (acc * b ^ (toBaseAux b digitF fuel n).length + n) := by
  intro fuel
  induction fuel with
  | zero => intro n h; omega
  | succ f ih =>
    intro n hn acc
    by_cases hnb : n < b
    · simp only [toBaseAux, if_pos hnb, parseBaseAux, hdig n hnb]
      simp
    · simp only [toBaseAux, if_neg hnb]
      rw [parseBaseAux_append]
      have hdiv : n / b < f := by
        have h1 : n / b < n := Nat.div_lt_self (by omega) (by omega)
        omega
      rw [ih (n / b) hdiv acc]
      simp only [Option.some_bind, parseBaseAux, hdig (n % b) (Nat.mod_lt n (by omega))]
      have harith : (acc * b ^ (toBaseAux b digitF f (n / b)).length + n / b) * b + n % b =
          acc * b ^ ((toBaseAux b digitF f (n / b)).length + 1) + n := by
        calc (acc * b ^ (toBaseAux b digitF f (n / b)).length + n / b) * b + n % b
            = acc * (b ^ (toBaseAux b digitF f (n / b)).length * b) + (b * (n / b) + n % b) := by
              ring
          _ = acc * b ^ ((toBaseAux b digitF f (n / b)).length + 1) + n := by
              rw [Nat.div_add_mod, pow_succ]
      rw [harith, List.length_append]
      rfl

lemma parseNat_natToDec (n : Nat) : parseNat (natToDec n) = some n := by
  unfold parseNat
  rw [if_neg]
  · have h := parse_toBaseAux 10 decDigitChar decVal (by omega)
      (fun d hd => decVal_decDigitChar hd) (n+1) n (Nat.lt_succ_self n) 0
    unfold natToDec
    rw [h]
    simp
  · have h := toBaseAux_ne_nil 10 decDigitChar (n+1) n (Nat.lt_succ_self n)
    simpa [natToDec, List.isEmpty_iff] using h

lemma comma_not_mem_natToDec (n : Nat) : ',' ∉ natToDec n := by
  intro hmem
  obtain ⟨d, hd, he⟩ := mem_toBaseAux 10 decDigitChar (by omega) (n+1) n ',' hmem
  have hv := decVal_decDigitChar hd
  rw [← he] at hv
  exact Option.noConfusion hv

/-! ### Comma splitting lemmas -/

lemma splitComma_no_comma : ∀ {g : List Char}, ',' ∉ g → splitComma g = [g] := by
  intro g
  induction g with
  | nil => intro _; rfl
  | cons c cs ih =>
    intro h
    have hc : ¬ (c = ',') := fun e => h (by simp [e])
    have hcs : ',' ∉ cs := fun m => h (List.mem_cons_of_mem _ m)
    simp only [splitComma, if_neg hc, ih hcs]

lemma splitComma_append {g : List Char} (hg : ',' ∉ g) (rest : List Char) :
    splitComma (g ++ ',' :: rest) = g :: splitComma rest := by
  induction g with
  | nil => simp [splitComma]
  | cons c cs ih =>
    have hc : ¬ (c = ',') := fun e => hg (by simp [e])
    have hcs : ',' ∉ cs := fun m => hg (List.mem_cons_of_mem _ m)
    simp only [List.cons_append, splitComma, if_neg hc, List.append_eq, ih hcs]

lemma splitComma_commaJoin :
    ∀ gs : List (List Char), gs ≠ [] → (∀ g ∈ gs, ',' ∉ g) →
      splitComma (commaJoin gs) = gs := by
  intro gs
  induction gs with
  | nil => intro h; exact absurd rfl h
  | cons g tail ih =>
    intro _ hmem
    cases tail with
    | nil => exact splitComma_no_comma (hmem g (by simp))
    | cons g2 gs2 =>
      have hjoin : commaJoin (g :: g2 :: gs2) = g ++ ',' :: commaJoin (g2 :: gs2) := rfl
      rw [hjoin, splitComma_append (hmem g (by simp)),
        ih (by simp) (fun x hx => hmem x (by simp [hx]))]

lemma mapParseNat_natToDec : ∀ ts : List Nat, mapParseNat (ts.map natToDec) = some ts := by
  intro ts
  induction ts with
  | nil => rfl
  | cons t ts ih => simp [mapParseNat, parseNat_natToDec, ih]

lemma commaJoin_cons_ne_nil (g : List Char) (gs : List (List Char)) (hg : g ≠ []) :
    commaJoin (g :: gs) ≠ [] := by
  cases gs with
  | nil => simpa [commaJoin] using hg
  | cons g2 gs2 =>
    show g ++ ',' :: commaJoin (g2 :: gs2) ≠ []
    simp

lemma parseEncoding_bracket (body : List Char) :
    parseEncoding ('[' :: (body ++ [']'])) =
      if body.isEmpty then some [] else mapParseNat (splitComma body) := by
  unfold parseEncoding
  simp [List.getLast?_concat, List.dropLast_concat]

/-- Claim C4: parsing the serialized encoding string recovers exactly the
token sequence the encoder produced, for every sequence within the
model's output range (at most 256 tokens, each token index below the
codebook size 16384, which keeps the rendered line within the
max_line_width of 50000 so that np.array2string emits a single line). -/
theorem claim_C4_encoding_roundtrip (tokens : List Nat)
    (hlen : tokens.length ≤ 256) (hval : ∀ t ∈ tokens, t < 16384) :
    parseEncoding (encodingString tokens) = some tokens := by
  unfold encodingString
  rw [parseEncoding_bracket]
  cases tokens with
  | nil => rfl
  | cons t ts =>
    have hne : commaJoin ((t :: ts).map natToDec) ≠ [] := by
      apply commaJoin_cons_ne_nil
      exact toBaseAux_ne_nil 10 decDigitChar (t+1) t (Nat.lt_succ_self t)
    rw [if_neg (by simpa [List.isEmpty_iff] using hne)]
    rw [splitComma_commaJoin _ (by simp)
      (by
        intro g hg hcomma
        obtain ⟨m, _, rfl⟩ := List.mem_map.mp hg
        exact comma_not_mem_natToDec m hcomma)]
    exact mapParseNat_natToDec _

theorem claim_C4_witness :
    ([0, 5234, 16383].length ≤ 256 ∧ ∀ t ∈ [0, 5234, 16383], t < 16384) ∧
    parseEncoding (encodingString [0, 5234, 16383]) = some [0, 5234, 16383] :=
  ⟨⟨by decide, by decide⟩,
    claim_C4_encoding_roundtrip [0, 5234, 16383] (by decide) (by decide)⟩

/-! ### Split writer step lemmas -/

lemma fOf_zero (s : Nat) : fOf s 0 = none := rfl

lemma fOf_succ (s n : Nat) : fOf s (n+1) = some (n / s) := by simp [fOf]

lemma div_pred_eq {s n : Nat} (hs : 1 ≤ s) (h : ¬ n % s = 0) : (n - 1) / s = n / s := by
  have hn : n ≠ 0 := by intro e; subst e; simp at h
  obtain ⟨k, rfl⟩ : ∃ k, n = k + 1 := ⟨n - 1, by omega⟩
  have hdvd : ¬ s ∣ (k + 1) := by
    rw [Nat.dvd_iff_mod_eq_zero]; exact h
  rw [Nat.succ_div, if_neg hdvd]
  simp

lemma processBatch_opens (s n : Nat) (st : WriterState) (b : List Record) :
    (processBatch s st n b).opens =
      if n % s = 0 then st.opens ++ [n / s] else st.opens := by
  by_cases h : n % s = 0 <;>
    · simp only [processBatch, rotateStep, appendBatch, h, if_true, if_false,
        reduceIte]
      cases hf : st.file <;> simp [hf]

lemma processBatch_closes (s n : Nat) (st : WriterState) (b : List Record) :
    (processBatch s st n b).closes =
      if n % s = 0 then st.closes ++ st.file.toList else st.closes := by
  by_cases h : n % s = 0 <;>
    · simp only [processBatch, rotateStep, appendBatch, h, if_true, if_false,
        reduceIte]
      cases hf : st.file <;> simp [hf]

lemma processBatch_file_rot {s n : Nat} (st : WriterState) (b : List Record)
    (h : n % s = 0) : (processBatch s st n b).file = some (n / s) := by
  simp only [processBatch, rotateStep, appendBatch, h, if_true, reduceIte]

lemma processBatch_file_norot {s n : Nat} (st : WriterState) (b : List Record)
    (h : ¬ n % s = 0) : (processBatch s st n b).file = st.file := by
  simp only [processBatch, rotateStep, appendBatch, h, if_false, reduceIte]
  cases hf : st.file <;> simp [hf]

lemma processBatch_file_inv {s n : Nat} {st : WriterState} (b : List Record)
    (hs : 1 ≤ s) (hf : st.file = fOf s n) :
    (processBatch s st n b).file = some (n / s) := by
  by_cases h : n % s = 0
  · exact processBatch_file_rot st b h
  · rw [processBatch_file_norot st b h, hf]
    have hn : n ≠ 0 := by intro e; subst e; simp at h
    obtain ⟨k, rfl⟩ : ∃ k, n = k + 1 := ⟨n - 1, by omega⟩
    rw [fOf_succ]
    have : (k + 1 - 1) / s = (k + 1) / s := div_pred_eq hs h
    simp at this
    rw [this]

lemma processBatch_fs_inv {s n : Nat} {st : WriterState} (b : List Record)
    (hs : 1 ≤ s) (hf : st.file = fOf s n) :
    (processBatch s st n b).fs =
      fun j => if j = n / s then (if n % s = 0 then [] else st.fs j) ++ b
               else st.fs j := by
  funext j
  by_cases h : n % s = 0
  · simp only [processBatch, rotateStep, appendBatch, h, if_true, reduceIte]
    cases hf2 : st.file with
    | none =>
      simp only []
      by_cases hj : j = n / s <;> simp [hj]
    | some i =>
      simp only []
      by_cases hj : j = n / s <;> simp [hj]
  · have hn : n ≠ 0 := by intro e; subst e; simp at h
    have hfile : st.file = some (n / s) := by
      obtain ⟨k, rfl⟩ : ∃ k, n = k + 1 := ⟨n - 1, by omega⟩
      rw [hf, fOf_succ]
      have hd : (k + 1 - 1) / s = (k + 1) / s := div_pred_eq hs h
      simp at hd
      rw [hd]
    simp only [processBatch, rotateStep, appendBatch, h, if_false, reduceIte, hfile]

lemma processBatch_errored_inv {s n : Nat} {st : WriterState} (b : List Record)
    (hs : 1 ≤ s) (hf : st.file = fOf s n) :
    (processBatch s st n b).errored = st.errored := by
  by_cases h : n % s = 0
  · simp only [processBatch, rotateStep, appendBatch, h, if_true, reduceIte]
    cases hf2 : st.file <;> simp [hf2]
  · have hn : n ≠ 0 := by intro e; subst e; simp at h
    have hfile : st.file = some (n / s) := by
      obtain ⟨k, rfl⟩ : ∃ k, n = k + 1 := ⟨n - 1, by omega⟩
      rw [hf, fOf_succ]
      have hd : (k + 1 - 1) / s = (k + 1) / s := div_pred_eq hs h
      simp at hd
      rw [hd]
    simp only [processBatch, rotateStep, appendBatch, h, if_false, reduceIte, hfile]

/-! ### Run-level invariants of the split writer -/

lemma runFrom_file (s : Nat) (hs : 1 ≤ s) :
    ∀ (bs : List (List Record)) (n : Nat) (st : WriterState),
      st.file = fOf s n →
      (runFrom s n bs st).file = fOf s (n + bs.length) := by
  intro bs
  induction bs with
  | nil => intro n st hf; simpa [runFrom] using hf
  | cons b tail ih =>
    intro n st hf
    show (runFrom s (n+1) tail (processBatch s st n b)).file = _
    rw [ih (n+1) (processBatch s st n b)
      (by rw [processBatch_file_inv b hs hf, fOf_succ])]
    have harith : n + 1 + tail.length = n + (b :: tail).length := by
      simp [List.length_cons]; omega
    rw [harith]

lemma runFrom_errored (s : Nat) (hs : 1 ≤ s) :
    ∀ (bs : List (List Record)) (n : Nat) (st : WriterState),
      st.file = fOf s n →
      (runFrom s n bs st).errored = st.errored := by
  intro bs
  induction bs with
  | nil => intro n st _; rfl
  | cons b tail ih =>
    intro n st hf
    show (runFrom s (n+1) tail (processBatch s st n b)).errored = _
    rw [ih (n+1) (processBatch s st n b)
      (by rw [processBatch_file_inv b hs hf, fOf_succ]),
      processBatch_errored_inv b hs hf]

lemma runFrom_openclose (s : Nat) :
    ∀ (bs : List (List Record)) (n : Nat) (st : WriterState),
      st.closes ++ st.file.toList = st.opens →
      (runFrom s n bs st).closes ++ (runFrom s n bs st).file.toList =
        (runFrom s n bs st).opens := by
  intro bs
  induction bs with
  | nil => intro n st h; exact h
  | cons b tail ih =>
    intro n st h
    show (runFrom s (n+1) tail (processBatch s st n b)).closes ++ _ = _
    apply ih
    rw [processBatch_opens, processBatch_closes]
    by_cases hmod : n % s = 0
    · rw [if_pos hmod, if_pos hmod]
      have hfile : (processBatch s st n b).file = some (n / s) :=
        processBatch_file_rot st b hmod
      rw [hfile]
      simp [← h, List.append_assoc]
    · rw [if_neg hmod, if_neg hmod, processBatch_file_norot st b hmod]
      exact h

lemma runFrom_opens_bound (s : Nat) :
    ∀ (bs : List (List Record)) (n : Nat) (st : WriterState),
      ∀ j ∈ (runFrom s n bs st).opens, j ∈ st.opens ∨ j * s < n + bs.length := by
  intro bs
  induction bs with
  | nil => intro n st j hj; exact Or.inl hj
  | cons b tail ih =>
    intro n st j hj
    have hj2 := ih (n+1) (processBatch s st n b) j hj
    rcases hj2 with hj2 | hj2
    · rw [processBatch_opens] at hj2
      by_cases hmod : n % s = 0
      · rw [if_pos hmod] at hj2
        rcases List.mem_append.mp hj2 with h1 | h2
        · exact Or.inl h1
        · simp at h2
          subst h2
          have : (n / s) * s ≤ n := Nat.div_mul_le_self n s
          right
          simp [List.length_cons]
          omega
      · rw [if_neg hmod] at hj2
        exact Or.inl hj2
    · right
      simp [List.length_cons]
      omega

lemma runFrom_opens_sorted (s : Nat) (hs : 1 ≤ s) :
    ∀ (bs : List (List Record)) (n : Nat) (st : WriterState),
      (∀ j ∈ st.opens, j * s < n) → st.opens.Pairwise (· < ·) →
      (runFrom s n bs st).opens.Pairwise (· < ·) := by
  intro bs
  induction bs with
  | nil => intro n st _ hp; exact hp
  | cons b tail ih =>
    intro n st hbound hp
    show ((runFrom s (n+1) tail (processBatch s st n b)).opens).Pairwise _
    by_cases hmod : n % s = 0
    · have heq : (processBatch s st n b).opens = st.opens ++ [n / s] := by
        rw [processBatch_opens, if_pos hmod]
      apply ih (n+1) (processBatch s st n b)
      · intro j hj
        rw [heq] at hj
        rcases List.mem_append.mp hj with h1 | h2
        · have := hbound j h1; omega
        · simp at h2
          subst h2
          have : (n / s) * s ≤ n := Nat.div_mul_le_self n s
          omega
      · rw [heq, List.pairwise_append]
        refine ⟨hp, by simp, ?_⟩
        intro a ha c hc
        simp at hc
        subst hc
        have h1 : a * s < n := hbound a ha
        have hn : (n / s) * s = n := Nat.div_mul_cancel (Nat.dvd_of_mod_eq_zero hmod)
        exact Nat.lt_of_mul_lt_mul_right (show a * s < (n / s) * s by rw [hn]; exact h1)
    · have heq : (processBatch s st n b).opens = st.opens := by
        rw [processBatch_opens, if_neg hmod]
      apply ih (n+1) (processBatch s st n b)
      · intro j hj
        rw [heq] at hj
        have := hbound j hj
        omega
      · rw [heq]; exact hp

/-! ### Contents of every split file after a run -/

lemma runFrom_fs (s : Nat) (hs : 1 ≤ s) :
    ∀ (bs : List (List Record)) (n : Nat) (st : WriterState),
      st.file = fOf s n → ∀ i,
      (runFrom s n bs st).fs i =
        (if n ≤ i * s ∧ i * s < n + bs.length then [] else st.fs i) ++
          recordsFor s n bs i := by
  intro bs
  induction bs with
  | nil =>
    intro n st hf i
    show st.fs i = _
    simp only [List.length_nil, Nat.add_zero, recordsFor]
    rw [if_neg (by omega), List.append_nil]
  | cons b tail ih =>
    intro n st hf i
    show (runFrom s (n+1) tail (processBatch s st n b)).fs i = _
    rw [ih (n+1) _ (by rw [processBatch_file_inv b hs hf, fOf_succ]) i,
      processBatch_fs_inv b hs hf]
    simp only [List.length_cons, recordsFor]
    by_cases hC : i = n / s
    · by_cases hD : n % s = 0
      · have he : i * s = n := by
          rw [hC]; exact Nat.div_mul_cancel (Nat.dvd_of_mod_eq_zero hD)
        rw [if_pos (by omega : n ≤ i * s ∧ i * s < n + (tail.length + 1)),
          if_neg (by omega : ¬ (n + 1 ≤ i * s ∧ i * s < n + 1 + tail.length)),
          if_pos hC, if_pos hD, if_pos hC.symm]
        simp
      · have hle : i * s ≤ n := by
          rw [hC]; exact Nat.div_mul_le_self n s
        have hne : i * s ≠ n := by
          intro he
          apply hD
          rw [← he]
          exact Nat.mul_mod_left i s
        rw [if_neg (by omega : ¬ (n ≤ i * s ∧ i * s < n + (tail.length + 1))),
          if_neg (by omega : ¬ (n + 1 ≤ i * s ∧ i * s < n + 1 + tail.length)),
          if_pos hC, if_neg hD, if_pos hC.symm]
        simp
    · have hne : i * s ≠ n := by
        intro he
        apply hC
        have h2 : i * s / s = n / s := by rw [he]
        rwa [Nat.mul_div_cancel i (by omega : 0 < s)] at h2
      have hiff : (n ≤ i * s ∧ i * s < n + (tail.length + 1)) ↔
          (n + 1 ≤ i * s ∧ i * s < n + 1 + tail.length) := by omega
      rw [if_congr hiff rfl rfl, if_neg hC,
        if_neg (show ¬ n / s = i from fun e => hC e.symm)]
      simp

/-! ### recordsFor toolkit -/

lemma recordsFor_nil_of (s : Nat) :
    ∀ (bs : List (List Record)) (n i : Nat),
      (∀ m, n ≤ m → m < n + bs.length → ¬ m / s = i) →
      recordsFor s n bs i = [] := by
  intro bs
  induction bs with
  | nil => intro n i _; rfl
  | cons b tail ih =>
    intro n i h
    simp only [recordsFor]
    rw [if_neg (h n (Nat.le_refl n) (by simp only [List.length_cons]; omega)),
      ih (n+1) i (fun m h1 h2 =>
        h m (by omega) (by simp only [List.length_cons] at h2 ⊢; omega))]
    rfl

lemma recordsFor_all (s : Nat) :
    ∀ (bs : List (List Record)) (n i : Nat),
      (∀ m, n ≤ m → m < n + bs.length → m / s = i) →
      recordsFor s n bs i = bs.flatten := by
  intro bs
  induction bs with
  | nil => intro n i _; rfl
  | cons b tail ih =>
    intro n i h
    simp only [recordsFor, List.flatten_cons]
    rw [if_pos (h n (Nat.le_refl n) (by simp only [List.length_cons]; omega)),
      ih (n+1) i (fun m h1 h2 =>
        h m (by omega) (by simp only [List.length_cons] at h2 ⊢; omega))]

lemma recordsFor_append (s : Nat) :
    ∀ (l1 l2 : List (List Record)) (n i : Nat),
      recordsFor s n (l1 ++ l2) i =
        recordsFor s n l1 i ++ recordsFor s (n + l1.length) l2 i := by
  intro l1
  induction l1 with
  | nil => intro l2 n i; simp [recordsFor]
  | cons b tail ih =>
    intro l2 n i
    simp only [List.cons_append, recordsFor, List.length_cons, List.append_eq]
    rw [ih l2 (n+1) i]
    rw [show n + 1 + tail.length = n + (tail.length + 1) from by omega]
    rw [List.append_assoc]

lemma recordsFor_shift (s : Nat) (hs : 1 ≤ s) :
    ∀ (bs : List (List Record)) (n i : Nat),
      recordsFor s (n + s) bs (i + 1) = recordsFor s n bs i := by
  intro bs
  induction bs with
  | nil => intro n i; rfl
  | cons b tail ih =>
    intro n i
    simp only [recordsFor]
    have hdiv : (n + s) / s = n / s + 1 := Nat.add_div_right n (by omega)
    have hcond : ((n + s) / s = i + 1) ↔ (n / s = i) := by rw [hdiv]; omega
    rw [if_congr hcond rfl rfl]
    have harith : n + s + 1 = n + 1 + s := by omega
    rw [harith, ih (n+1) i]

lemma recordsFor_segment (s : Nat) (hs : 1 ≤ s) :
    ∀ (i : Nat) (bs : List (List Record)),
      recordsFor s 0 bs i = ((bs.drop (i * s)).take s).flatten := by
  intro i
  induction i with
  | zero =>
    intro bs
    rw [show bs = bs.take s ++ bs.drop s from (List.take_append_drop s bs).symm]
    rw [recordsFor_append]
    have h1 : recordsFor s 0 (bs.take s) 0 = (bs.take s).flatten := by
      apply recordsFor_all
      intro m _ hm
      simp only [Nat.zero_add, List.length_take] at hm
      exact Nat.div_eq_of_lt (by omega)
    have h2 : recordsFor s (0 + (bs.take s).length) (bs.drop s) 0 = [] := by
      apply recordsFor_nil_of
      intro m h1m h2m he
      simp only [Nat.zero_add, List.length_take, List.length_drop] at h1m h2m
      by_cases hlen : bs.length ≤ s
      · omega
      · have hsm : s ≤ m := by omega
        have hdiv : 1 ≤ m / s := (Nat.one_le_div_iff (by omega)).mpr hsm
        omega
    rw [h1, h2, List.append_nil]
    simp [List.take_append_drop]
  | succ i ih =>
    intro bs
    have h1 : recordsFor s 0 (bs.take s) (i + 1) = [] := by
      apply recordsFor_nil_of
      intro m h1m h2m he
      simp only [Nat.zero_add, List.length_take] at h2m
      have : m / s = 0 := Nat.div_eq_of_lt (by omega)
      omega
    have hsplit : recordsFor s 0 bs (i + 1) =
        recordsFor s 0 (bs.take s) (i + 1) ++
          recordsFor s (0 + (bs.take s).length) (bs.drop s) (i + 1) := by
      conv_lhs =>
        rw [show bs = bs.take s ++ bs.drop s from (List.take_append_drop s bs).symm]
      exact recordsFor_append s _ _ 0 (i + 1)
    rw [hsplit, h1, List.nil_append]
    by_cases hlen : bs.length ≤ s
    · rw [List.drop_eq_nil_of_le hlen]
      have hge : s ≤ (i + 1) * s := by
        have h3 : 1 * s ≤ (i + 1) * s := Nat.mul_le_mul_right s (by omega)
        omega
      rw [List.drop_eq_nil_of_le (show bs.length ≤ (i + 1) * s from by omega)]
      simp [recordsFor]
    · have hmin : (bs.take s).length = s := by
        simp only [List.length_take]
        omega
      rw [hmin, show (0 + s : Nat) = 0 + s from rfl]
      rw [show recordsFor s (0 + s) (bs.drop s) (i + 1) =
            recordsFor s 0 (bs.drop s) i from recordsFor_shift s hs (bs.drop s) 0 i]
      rw [ih (bs.drop s), List.drop_drop]
      rw [show s + i * s = (i + 1) * s from by ring]

/-! ### Covering the batch list by split segments -/

lemma range_segments_flatten {α : Type} (s : Nat) (hs : 1 ≤ s) :
    ∀ (K : Nat) (l : List α), l.length ≤ K * s →
      ((List.range K).map (fun i => (l.drop (i * s)).take s)).flatten = l := by
  intro K
  induction K with
  | zero =>
    intro l h
    simp only [Nat.zero_mul, Nat.le_zero, List.length_eq_zero] at h
    simp [h]
  | succ K ih =>
    intro l h
    rw [List.range_succ_eq_map]
    simp only [List.map_cons, List.map_map, List.flatten_cons, Nat.zero_mul,
      List.drop_zero]
    have htail : (List.range K).map ((fun i => (l.drop (i * s)).take s) ∘ Nat.succ) =
        (List.range K).map (fun i => ((l.drop s).drop (i * s)).take s) := by
      apply List.map_congr_left
      intro a _
      simp only [Function.comp]
      rw [List.drop_drop]
      rw [show s + a * s = Nat.succ a * s from by rw [Nat.succ_mul]; omega]
    rw [htail]
    have hexp : (K + 1) * s = K * s + s := Nat.succ_mul K s
    rw [ih (l.drop s) (by simp only [List.length_drop]; omega)]
    exact List.take_append_drop s l

lemma numSplits_zero (s : Nat) : numSplits s 0 = 0 := by
  unfold numSplits
  cases s with
  | zero => rfl
  | succ t => exact Nat.div_eq_of_lt (by omega)

lemma numSplits_pos_eq (s len : Nat) (hs : 1 ≤ s) (hlen : 1 ≤ len) :
    numSplits s len = (len - 1) / s + 1 := by
  unfold numSplits
  rw [show len + s - 1 = (len - 1) + s from by omega]
  exact Nat.add_div_right (len - 1) (by omega)

lemma length_le_numSplits_mul (s len : Nat) (hs : 1 ≤ s) :
    len ≤ numSplits s len * s := by
  rcases Nat.eq_zero_or_pos len with h | h
  · omega
  · rw [numSplits_pos_eq s len hs h]
    have h1 := Nat.div_add_mod (len - 1) s
    have h2 : (len - 1) % s < s := Nat.mod_lt _ (by omega)
    have h3 : ((len - 1) / s + 1) * s = (len - 1) / s * s + s := Nat.succ_mul _ s
    have h4 : (len - 1) / s * s = s * ((len - 1) / s) := Nat.mul_comm _ _
    omega

lemma mul_lt_of_lt_numSplits {s len i : Nat} (hs : 1 ≤ s)
    (h : i + 1 < numSplits s len) : i * s + s + 1 ≤ len := by
  have hlen : 1 ≤ len := by
    by_contra hcon
    have : len = 0 := by omega
    rw [this, numSplits_zero] at h
    omega
  rw [numSplits_pos_eq s len hs hlen] at h
  have h2 : i + 1 ≤ (len - 1) / s := by omega
  have h3 : (i + 1) * s ≤ (len - 1) / s * s := Nat.mul_le_mul_right s h2
  have h4 : (len - 1) / s * s ≤ len - 1 := Nat.div_mul_le_self _ s
  have h5 : (i + 1) * s = i * s + s := Nat.succ_mul i s
  omega

/-! ### Final file contents of a run -/

lemma encode_fs_empty (s : Nat) (hs : 1 ≤ s) (bs : List (List Record)) (i : Nat) :
    (encode_captioned_dataset s bs (initState emptyStore)).fs i =
      recordsFor s 0 bs i := by
  unfold encode_captioned_dataset
  rw [runFrom_fs s hs bs 0 (initState emptyStore) rfl i]
  split <;> simp [initState, emptyStore]

lemma recordsFor_nil_of_ge (s : Nat) (hs : 1 ≤ s) (bs : List (List Record))
    (i : Nat) (h : bs.length ≤ i * s) : recordsFor s 0 bs i = [] := by
  apply recordsFor_nil_of
  intro m _ hm he
  have : i ≤ m / s := Nat.le_of_eq he.symm
  have : i * s ≤ m := (Nat.le_div_iff_mul_le (by omega)).mp this
  omega

lemma encode_fs_untouched (s : Nat) (hs : 1 ≤ s) (bs : List (List Record))
    (fs0 : Nat → List Record) (i : Nat) (h : bs.length ≤ i * s) :
    (encode_captioned_dataset s bs (initState fs0)).fs i = fs0 i := by
  unfold encode_captioned_dataset
  rw [runFrom_fs s hs bs 0 (initState fs0) rfl i]
  rw [if_neg (by omega : ¬ (0 ≤ i * s ∧ i * s < 0 + bs.length))]
  rw [recordsFor_nil_of_ge s hs bs i h]
  simp [initState]

lemma encode_fs_opened (s : Nat) (hs : 1 ≤ s) (bs : List (List Record))
    (fs0 : Nat → List Record) (i : Nat) (h : i * s < bs.length) :
    (encode_captioned_dataset s bs (initState fs0)).fs i = recordsFor s 0 bs i := by
  unfold encode_captioned_dataset
  rw [runFrom_fs s hs bs 0 (initState fs0) rfl i]
  rw [if_pos (by omega : 0 ≤ i * s ∧ i * s < 0 + bs.length)]
  rfl

lemma encode_flatten (s : Nat) (hs : 1 ≤ s) (bs : List (List Record)) :
    ((List.range (numSplits s bs.length)).map
        (encode_captioned_dataset s bs (initState emptyStore)).fs).flatten =
      bs.flatten := by
  have hchar : (List.range (numSplits s bs.length)).map
      (encode_captioned_dataset s bs (initState emptyStore)).fs =
      (List.range (numSplits s bs.length)).map
        (fun i => ((bs.drop (i * s)).take s).flatten) := by
    apply List.map_congr_left
    intro i _
    rw [encode_fs_empty s hs bs i, recordsFor_segment s hs i bs]
  rw [hchar]
  rw [show (List.range (numSplits s bs.length)).map
        (fun i => ((bs.drop (i * s)).take s).flatten) =
      ((List.range (numSplits s bs.length)).map
        (fun i => (bs.drop (i * s)).take s)).map List.flatten from by
    rw [List.map_map]; rfl]
  rw [← List.flatten_flatten]
  rw [range_segments_flatten s hs (numSplits s bs.length) bs
    (length_le_numSplits_mul s bs.length hs)]

/-! ### Membership of a batch inside its split segment -/

lemma getElem_mem_segment {α : Type} (l : List α) (a k n : Nat) (h : n < l.length)
    (h1 : a ≤ n) (h2 : n < a + k) : l[n] ∈ (l.drop a).take k := by
  have ht : n - a < ((l.drop a).take k).length := by
    simp only [List.length_take, List.length_drop]
    exact Nat.lt_min.mpr ⟨by omega, by omega⟩
  have hmem := List.getElem_mem ht
  rw [List.getElem_take, List.getElem_drop] at hmem
  simpa [show a + (n - a) = n from by omega] using hmem

/-! ### Concrete run used by the witnesses -/

def r0 : Record := ⟨"k0", "c0", []⟩

def r1 : Record := ⟨"k1", "c1", []⟩

def r2 : Record := ⟨"k2", "c2", []⟩

def r3 : Record := ⟨"k3", "c3", []⟩

def r4 : Record := ⟨"k4", "c4", []⟩

def bs5 : List (List Record) := [[r0], [r1], [r2], [r3], [r4]]

/-- Claim C1: every record batch handed to the split writer is written to
exactly one split file, and the records of a run, read file by file in
split order, are exactly the encoded records in arrival order: nothing
is dropped, duplicated or reordered after encoding, whatever losses the
skip policy caused upstream (the batch list is universally
quantified). -/
theorem claim_C1_write_exactly_once_in_order (save_every : Nat)
    (bs : List (List Record)) (hs : 1 ≤ save_every) :
    (∀ i, (encode_captioned_dataset save_every bs (initState emptyStore)).fs i =
      recordsFor save_every 0 bs i) ∧
    ((List.range (numSplits save_every bs.length)).map
        (encode_captioned_dataset save_every bs (initState emptyStore)).fs).flatten =
      bs.flatten :=
  ⟨fun i => encode_fs_empty save_every hs bs i, encode_flatten save_every hs bs⟩

theorem claim_C1_witness :
    (encode_captioned_dataset 2 bs5 (initState emptyStore)).fs 1 =
      recordsFor 2 0 bs5 1 ∧
    ((List.range (numSplits 2 bs5.length)).map
        (encode_captioned_dataset 2 bs5 (initState emptyStore)).fs).flatten =
      bs5.flatten :=
  ⟨(claim_C1_write_exactly_once_in_order 2 bs5 (by decide)).1 1,
    (claim_C1_write_exactly_once_in_order 2 bs5 (by decide)).2⟩

/-- Claim C2: the rotation rule is evaluated once per incoming batch;
while batch n is appended the open file has split index n divided by
save_every, and the records of batch n end up contiguously inside that
split file. -/
theorem claim_C2_rotation_rule (save_every : Nat) (bs : List (List Record))
    (fs0 : Nat → List Record) (n : Nat) (hs : 1 ≤ save_every)
    (hn : n < bs.length) :
    (runFrom save_every 0 (bs.take (n+1)) (initState fs0)).file =
      some (n / save_every) ∧
    ∃ pre post,
      (encode_captioned_dataset save_every bs (initState emptyStore)).fs
          (n / save_every) = pre ++ bs[n] ++ post := by
  constructor
  · have h1 := runFrom_file save_every hs (bs.take (n+1)) 0 (initState fs0) rfl
    have hlen : (bs.take (n+1)).length = n + 1 := by
      simp only [List.length_take]
      omega
    rw [hlen, Nat.zero_add, fOf_succ] at h1
    exact h1
  · rw [encode_fs_empty save_every hs bs (n / save_every),
      recordsFor_segment save_every hs]
    have ha1 : (n / save_every) * save_every ≤ n := Nat.div_mul_le_self n save_every
    have hmod : n % save_every < save_every := Nat.mod_lt n (by omega)
    have hdm : save_every * (n / save_every) + n % save_every = n :=
      Nat.div_add_mod n save_every
    have hcomm : (n / save_every) * save_every = save_every * (n / save_every) :=
      Nat.mul_comm _ _
    have hmem := getElem_mem_segment bs ((n / save_every) * save_every) save_every n
      hn ha1 (by omega)
    obtain ⟨u, v, he⟩ := List.append_of_mem hmem
    refine ⟨u.flatten, v.flatten, ?_⟩
    rw [he]
    simp [List.flatten_append, List.append_assoc]

theorem claim_C2_witness :
    (runFrom 2 0 (bs5.take 5) (initState emptyStore)).file = some 2 ∧
    ∃ pre post,
      (encode_captioned_dataset 2 bs5 (initState emptyStore)).fs 2 =
        pre ++ [r4] ++ post := by
  have h := claim_C2_rotation_rule 2 bs5 emptyStore 4 (by decide) (by decide)
  exact ⟨h.1, h.2⟩

/-- Claim C6 (amended): on stream exhaustion the split writer does NOT
close the last open file: the loop body closes a file only when the next
rotation boundary arrives, and encode_captioned_dataset has no close
after the loop, so for every nonempty batch stream the run ends with the
final split file still open and the closed indices are exactly the
opened ones except the last. -/
theorem claim_C6_terminal_close (save_every : Nat) (bs : List (List Record))
    (fs0 : Nat → List Record) (hs : 1 ≤ save_every) (hne : bs ≠ []) :
    (encode_captioned_dataset save_every bs (initState fs0)).file =
      some ((bs.length - 1) / save_every) ∧
    (encode_captioned_dataset save_every bs (initState fs0)).closes ++
        [(bs.length - 1) / save_every] =
      (encode_captioned_dataset save_every bs (initState fs0)).opens := by
  have hlen : bs.length ≠ 0 := fun h => hne (List.length_eq_zero.mp h)
  have hfs : (runFrom save_every 0 bs (initState fs0)).file =
      some ((bs.length - 1) / save_every) := by
    have h1 := runFrom_file save_every hs bs 0 (initState fs0) rfl
    rw [Nat.zero_add] at h1
    obtain ⟨m, hm⟩ : ∃ m, bs.length = m + 1 := ⟨bs.length - 1, by omega⟩
    rw [hm] at h1
    rw [hm, h1, fOf_succ]
    simp
  refine ⟨hfs, ?_⟩
  have hoc := runFrom_openclose save_every bs 0 (initState fs0) rfl
  rw [hfs] at hoc
  simpa using hoc

theorem claim_C6_witness :
    (encode_captioned_dataset 2 bs5 (initState emptyStore)).file = some 2 ∧
    (encode_captioned_dataset 2 bs5 (initState emptyStore)).closes ++ [2] =
      (encode_captioned_dataset 2 bs5 (initState emptyStore)).opens := by
  have h := claim_C6_terminal_close 2 bs5 emptyStore (by decide) (by decide)
  exact h

/-- Claim C6 counterexample: a one-batch run with save_every 1 finishes
with split file 0 still open and no close recorded, refuting the claim
that the writer closes any open file when the stream is exhausted. -/
theorem claim_C6_counterexample :
    (encode_captioned_dataset 1 [[r0]] (initState emptyStore)).file ≠ none ∧
    (encode_captioned_dataset 1 [[r0]] (initState emptyStore)).closes = [] := by
  refine ⟨by decide, rfl⟩

/-- Claim C9: every rotation opens the split file in write mode,
truncating whatever a previous run left there (the final contents of an
opened split do not depend on the initial directory contents fs0), a
single run never opens the same split index twice (the opened indices
are pairwise distinct), and split files the run never opens keep their
prior contents. -/
theorem claim_C9_truncate_mode_no_reopen (save_every : Nat)
    (bs : List (List Record)) (fs0 : Nat → List Record) (hs : 1 ≤ save_every) :
    ((encode_captioned_dataset save_every bs (initState fs0)).opens).Nodup ∧
    (∀ i, i * save_every < bs.length →
      (encode_captioned_dataset save_every bs (initState fs0)).fs i =
        recordsFor save_every 0 bs i) ∧
    (∀ i, bs.length ≤ i * save_every →
      (encode_captioned_dataset save_every bs (initState fs0)).fs i = fs0 i) := by
  refine ⟨?_, fun i h => encode_fs_opened save_every hs bs fs0 i h,
    fun i h => encode_fs_untouched save_every hs bs fs0 i h⟩
  have hp := runFrom_opens_sorted save_every hs bs 0 (initState fs0)
    (by intro j hj; simp [initState] at hj) (by simp [initState])
  exact hp.imp (fun hlt => Nat.ne_of_lt hlt)

def dirtyStore : Nat → List Record := fun _ => [r0, r0, r0]

theorem claim_C9_witness :
    ((encode_captioned_dataset 2 bs5 (initState dirtyStore)).opens).Nodup ∧
    (encode_captioned_dataset 2 bs5 (initState dirtyStore)).fs 1 =
      recordsFor 2 0 bs5 1 ∧
    (encode_captioned_dataset 2 bs5 (initState dirtyStore)).fs 7 = dirtyStore 7 := by
  have h := claim_C9_truncate_mode_no_reopen 2 bs5 dirtyStore (by decide)
  exact ⟨h.1, h.2.1 1 (by decide), h.2.2 7 (by decide)⟩

/-- Claim C10: with save_every at least one, the rotation condition
holds at batch 0 (zero modulo anything is zero), so a file is opened
before the first append and every later append still sees an open file:
the errored flag, which records a write in the NO_FILE state, stays
false over every prefix of the run.  The save_every of zero excluded by
the hypothesis raises a ZeroDivisionError in the source. -/
theorem claim_C10_write_always_open (save_every : Nat) (bs : List (List Record))
    (fs0 : Nat → List Record) (hs : 1 ≤ save_every) :
    (∀ n, (runFrom save_every 0 (bs.take n) (initState fs0)).errored = false) ∧
    (bs ≠ [] → (runFrom save_every 0 (bs.take 1) (initState fs0)).file = some 0) := by
  constructor
  · intro n
    rw [runFrom_errored save_every hs (bs.take n) 0 (initState fs0) rfl]
    rfl
  · intro hne
    have h1 := runFrom_file save_every hs (bs.take 1) 0 (initState fs0) rfl
    have hlen : (bs.take 1).length = 1 := by
      cases bs with
      | nil => exact absurd rfl hne
      | cons b tail => simp
    rw [hlen, Nat.zero_add, fOf_succ, Nat.zero_div] at h1
    exact h1

theorem claim_C10_witness :
    (runFrom 2 0 (bs5.take 3) (initState emptyStore)).errored = false ∧
    (runFrom 2 0 (bs5.take 1) (initState emptyStore)).file = some 0 := by
  have h := claim_C10_write_always_open 2 bs5 emptyStore (by decide)
  exact ⟨h.1 3, h.2 (by decide)⟩

/-! ### Hexadecimal rendering bounds and the split file name -/

lemma toBaseAux_length_le (b : Nat) (digitF : Nat → Char) (hb : 2 ≤ b) :
    ∀ fuel k n, n < b ^ (k + 1) → (toBaseAux b digitF fuel n).length ≤ k + 1 := by
  intro fuel
  induction fuel with
  | zero => intro k n _; simp [toBaseAux]
  | succ f ih =>
    intro k n h
    simp only [toBaseAux]
    by_cases hn : n < b
    · rw [if_pos hn]; simp
    · rw [if_neg hn]
      cases k with
      | zero =>
        rw [pow_one] at h
        omega
      | succ k2 =>
        rw [List.length_append]
        have hlt : n / b < b ^ (k2 + 1) := by
          rw [Nat.div_lt_iff_lt_mul (by omega)]
          calc n < b ^ (k2 + 2) := h
            _ = b ^ (k2 + 1) * b := by rw [pow_succ]
        have := ih k2 (n / b) hlt
        simp only [List.length_cons, List.length_nil]
        omega

lemma toBaseAux_length_ge (b : Nat) (digitF : Nat → Char) (hb : 2 ≤ b) :
    ∀ k fuel n, n < fuel → b ^ k ≤ n →
      k + 1 ≤ (toBaseAux b digitF fuel n).length := by
  intro k
  induction k with
  | zero =>
    intro fuel n hfuel _
    have h1 := toBaseAux_ne_nil b digitF fuel n hfuel
    have h2 := List.length_pos.mpr h1
    omega
  | succ k2 ih =>
    intro fuel n hfuel hge
    have hbn : b ≤ n := by
      have h1 : b ^ 1 ≤ b ^ (k2 + 1) := Nat.pow_le_pow_right (by omega) (by omega)
      rw [pow_one] at h1
      omega
    cases fuel with
    | zero => omega
    | succ f =>
      simp only [toBaseAux, if_neg (show ¬ n < b from by omega)]
      rw [List.length_append]
      have h1 : n / b < f := by
        have h2 : n / b < n := Nat.div_lt_self (by omega) (by omega)
        omega
      have h2 : b ^ k2 ≤ n / b := by
        rw [Nat.le_div_iff_mul_le (by omega)]
        calc b ^ k2 * b = b ^ (k2 + 1) := (pow_succ b k2).symm
          _ ≤ n := hge
      have h3 := ih f (n / b) h1 h2
      simp only [List.length_cons, List.length_nil]
      omega

lemma parseHexAux_zeros : ∀ (k : Nat) (l : List Char),
    parseBaseAux 16 hexVal 0 (List.replicate k '0' ++ l) =
      parseBaseAux 16 hexVal 0 l := by
  intro k
  induction k with
  | zero => intro l; rfl
  | succ k2 ih =>
    intro l
    have hstep : parseBaseAux 16 hexVal 0 ('0' :: (List.replicate k2 '0' ++ l)) =
        parseBaseAux 16 hexVal (0 * 16 + 0) (List.replicate k2 '0' ++ l) := rfl
    simp only [List.replicate_succ, List.cons_append, hstep]
    simpa using ih l

lemma format05x_spec {n : Nat} (h : n < 16 ^ 5) :
    (format05x n).length = 5 ∧ (∀ c ∈ format05x n, isLowerHexDigit c = true) ∧
      parseHex (format05x n) = some n := by
  have hle : (natToHex n).length ≤ 5 :=
    toBaseAux_length_le 16 hexDigitChar (by omega) (n+1) 4 n h
  have hne : natToHex n ≠ [] :=
    toBaseAux_ne_nil 16 hexDigitChar (n+1) n (Nat.lt_succ_self n)
  have hpos : 1 ≤ (natToHex n).length := List.length_pos.mpr hne
  refine ⟨?_, ?_, ?_⟩
  · simp only [format05x, List.length_append, List.length_replicate]
    omega
  · intro c hc
    simp only [format05x, List.mem_append] at hc
    rcases hc with hc | hc
    · have hc0 : c = '0' := List.eq_of_mem_replicate hc
      subst hc0
      rfl
    · obtain ⟨d, hd, rfl⟩ := mem_toBaseAux 16 hexDigitChar (by omega) (n+1) n c hc
      simp [isLowerHexDigit, hexVal_hexDigitChar hd]
  · unfold parseHex
    rw [if_neg]
    · unfold format05x
      rw [parseHexAux_zeros]
      have hp := parse_toBaseAux 16 hexDigitChar hexVal (by omega)
        (fun d hd => hexVal_hexDigitChar hd) (n+1) n (Nat.lt_succ_self n) 0
      unfold natToHex
      rw [hp]
      simp
    · simp only [format05x, List.isEmpty_iff, List.append_eq_nil]
      rintro ⟨-, h2⟩
      exact hne h2

/-- Claim C7 (amended): for every split index a run actually opens, as
long as the run stays below 1048576 opened splits (batch count at most
1048576 times save_every), the output file name is split_ followed by
exactly five zero-padded lowercase hexadecimal digits and the extension
jsonl, and parsing those five digits back as hexadecimal recovers the
split index.  Beyond split index fffff the Python format spec 05x emits
more than five digits instead of truncating, so the five-digit shape of
the claim fails there (see the counterexample). -/
theorem claim_C7_split_file_name (save_every : Nat) (bs : List (List Record))
    (fs0 : Nat → List Record) (hs : 1 ≤ save_every)
    (hrun : bs.length ≤ 1048576 * save_every) :
    ∀ i ∈ (encode_captioned_dataset save_every bs (initState fs0)).opens,
      (format05x i).length = 5 ∧
      (∀ c ∈ format05x i, isLowerHexDigit c = true) ∧
      parseHex (format05x i) = some i ∧
      splitFileName i = "split_".toList ++ format05x i ++ ".jsonl".toList := by
  intro i hi
  have hb := runFrom_opens_bound save_every bs 0 (initState fs0) i hi
  have hlt : i * save_every < bs.length := by
    rcases hb with h | h
    · simp [initState] at h
    · simpa using h
  have hi5 : i < 16 ^ 5 := by
    have h1 : i * save_every < 1048576 * save_every := by omega
    have h2 : i < 1048576 := Nat.lt_of_mul_lt_mul_right h1
    have hp : (16 : Nat) ^ 5 = 1048576 := by norm_num
    omega
  obtain ⟨ha, hbm, hc⟩ := format05x_spec hi5
  exact ⟨ha, hbm, hc, rfl⟩

theorem claim_C7_witness :
    (format05x 0).length = 5 ∧
    (∀ c ∈ format05x 0, isLowerHexDigit c = true) ∧
    parseHex (format05x 0) = some 0 ∧
    splitFileName 0 = "split_".toList ++ format05x 0 ++ ".jsonl".toList := by
  have h := claim_C7_split_file_name 1 [[r0]] emptyStore (by decide)
    (by norm_num) 0 (by decide)
  exact h

/-- Claim C7 counterexample: at split index 1048576 (16 to the fifth)
the Python format spec 05x produces six hexadecimal digits, so the file
name is not of the claimed exactly-five-digit shape (such names have 17
characters; this one has more). -/
theorem claim_C7_counterexample :
    (format05x 1048576).length ≠ 5 ∧ (splitFileName 1048576).length ≠ 17 := by
  have hge : 6 ≤ (natToHex 1048576).length := by
    have h1 := toBaseAux_length_ge 16 hexDigitChar (by omega) 5 1048577 1048576
      (by omega) (by norm_num)
    exact h1
  constructor
  · simp only [format05x, List.length_append, List.length_replicate]
    omega
  · simp only [splitFileName, format05x, List.length_append, List.length_replicate]
    have h6 : ("split_".toList).length = 6 := rfl
    have h6b : (".jsonl".toList).length = 6 := rfl
    omega

/-! ### Chunking lemmas for the batch source -/

lemma chunkAux_nil {α : Type} (k : Nat) : ∀ fuel, chunkAux k fuel ([] : List α) = [] := by
  intro fuel
  cases fuel <;> rfl

lemma chunkAux_flatten {α : Type} (k : Nat) (hk : 1 ≤ k) :
    ∀ fuel (l : List α), l.length ≤ fuel → (chunkAux k fuel l).flatten = l := by
  intro fuel
  induction fuel with
  | zero =>
    intro l h
    have hnil : l = [] := List.eq_nil_of_length_eq_zero (by omega)
    subst hnil
    rfl
  | succ f ih =>
    intro l h
    cases l with
    | nil => rfl
    | cons a as =>
      simp only [chunkAux, List.isEmpty_cons, if_neg (by simp : ¬ (false = true)),
        List.flatten_cons]
      rw [ih ((a :: as).drop k)
        (by simp only [List.length_drop, List.length_cons] at h ⊢; omega)]
      exact List.take_append_drop k (a :: as)

lemma chunkAux_length_le {α : Type} (k : Nat) :
    ∀ fuel (l : List α), ∀ c ∈ chunkAux k fuel l, c.length ≤ k := by
  intro fuel
  induction fuel with
  | zero => intro l c hc; simp [chunkAux] at hc
  | succ f ih =>
    intro l c hc
    cases l with
    | nil => simp [chunkAux] at hc
    | cons a as =>
      simp only [chunkAux, List.isEmpty_cons, if_neg (by simp : ¬ (false = true)),
        List.mem_cons] at hc
      rcases hc with hc | hc
      · subst hc
        simp only [List.length_take]
        omega
      · exact ih _ c hc

lemma chunkAux_mem_ne_nil {α : Type} (k : Nat) (hk : 1 ≤ k) :
    ∀ fuel (l : List α), ∀ c ∈ chunkAux k fuel l, c ≠ [] := by
  intro fuel
  induction fuel with
  | zero => intro l c hc; simp [chunkAux] at hc
  | succ f ih =>
    intro l c hc
    cases l with
    | nil => simp [chunkAux] at hc
    | cons a as =>
      simp only [chunkAux, List.isEmpty_cons, if_neg (by simp : ¬ (false = true)),
        List.mem_cons] at hc
      rcases hc with hc | hc
      · subst hc
        have : (List.take k (a :: as)).length = min k (a :: as).length :=
          List.length_take k (a :: as)
        intro he
        rw [he] at this
        simp only [List.length_nil, List.length_cons] at this
        omega
      · exact ih _ c hc

lemma chunkAux_dropLast_length {α : Type} (k : Nat) (hk : 1 ≤ k) :
    ∀ fuel (l : List α), l.length ≤ fuel →
      ∀ c ∈ (chunkAux k fuel l).dropLast, c.length = k := by
  intro fuel
  induction fuel with
  | zero =>
    intro l h c hc
    have hnil : l = [] := List.eq_nil_of_length_eq_zero (by omega)
    subst hnil
    simp [chunkAux_nil] at hc
  | succ f ih =>
    intro l h c hc
    cases l with
    | nil => simp [chunkAux] at hc
    | cons a as =>
      simp only [chunkAux, List.isEmpty_cons,
        if_neg (by simp : ¬ (false = true))] at hc
      cases hrest : chunkAux k f ((a :: as).drop k) with
      | nil =>
        rw [hrest] at hc
        simp at hc
      | cons r rs =>
        rw [hrest] at hc
        rw [List.dropLast_cons₂] at hc
        rcases List.mem_cons.mp hc with hc | hc
        · subst hc
          have hdrop : (a :: as).drop k ≠ [] := by
            intro he
            rw [he, chunkAux_nil] at hrest
            exact List.noConfusion hrest
          have hklen : k < (a :: as).length := by
            by_contra hcon
            exact hdrop (List.drop_eq_nil_of_le (by omega))
          simp only [List.length_take]
          omega
        · apply ih ((a :: as).drop k)
            (by simp only [List.length_drop, List.length_cons] at h ⊢; omega)
          rw [hrest]
          exact hc

/-- Claim C8: the data loader groups the prepared item stream into
consecutive superbatches of batch_size_per_device times device_count
items (the DataLoader batch size in the streaming notebook, the bs
constant in the webdataset notebook): concatenating the batches
recovers the stream in order, every batch except possibly the last has
exactly that many items, and every batch is nonempty and no larger. -/
theorem claim_C8_superbatch_grouping (batch_size device_count : Nat)
    (items : List PreparedItem) (hb : 1 ≤ batch_size) (hd : 1 ≤ device_count) :
    (chunkList (batch_size * device_count) items).flatten = items ∧
    (∀ c ∈ (chunkList (batch_size * device_count) items).dropLast,
      c.length = batch_size * device_count) ∧
    (∀ c ∈ chunkList (batch_size * device_count) items,
      c.length ≤ batch_size * device_count ∧ c ≠ []) := by
  have hk : 1 ≤ batch_size * device_count := by
    have := Nat.mul_pos (show 0 < batch_size from by omega)
      (show 0 < device_count from by omega)
    omega
  unfold chunkList
  exact ⟨chunkAux_flatten _ hk items.length items (Nat.le_refl _),
    chunkAux_dropLast_length _ hk items.length items (Nat.le_refl _),
    fun c hc => ⟨chunkAux_length_le _ items.length items c hc,
      chunkAux_mem_ne_nil _ hk items.length items c hc⟩⟩

def it0 : PreparedItem := ⟨"k0", "c0", 0⟩

def it1 : PreparedItem := ⟨"k1", "c1", 1⟩

def it2 : PreparedItem := ⟨"k2", "c2", 2⟩

def it3 : PreparedItem := ⟨"k3", "c3", 3⟩

def it4 : PreparedItem := ⟨"k4", "c4", 4⟩

def items5 : List PreparedItem := [it0, it1, it2, it3, it4]

theorem claim_C8_witness :
    (chunkList (2 * 1) items5).flatten = items5 ∧
    (∀ c ∈ (chunkList (2 * 1) items5).dropLast, c.length = 2 * 1) ∧
    (∀ c ∈ chunkList (2 * 1) items5, c.length ≤ 2 * 1 ∧ c ≠ []) := by
  have h := claim_C8_superbatch_grouping 2 1 items5 (by decide) (by decide)
  exact h

/-! ### End-to-end pipeline lemmas -/

lemma dropLast_map {α β : Type} (f : α → β) (l : List α) :
    (l.map f).dropLast = l.dropLast.map f := by
  rw [List.dropLast_eq_take, List.dropLast_eq_take, List.length_map, ← List.map_take]

lemma mem_segment_dropLast {α : Type} (l : List α) (a k : Nat)
    (h : a + k + 1 ≤ l.length) :
    ∀ c ∈ (l.drop a).take k, c ∈ l.dropLast := by
  intro c hc
  have he : (l.dropLast.drop a).take k = (l.drop a).take k := by
    rw [List.dropLast_eq_take, List.drop_take, List.take_take]
    congr 1
    exact Nat.min_eq_left (by omega)
  rw [← he] at hc
  exact (List.drop_sublist a l.dropLast).subset
    ((List.take_sublist k (l.dropLast.drop a)).subset hc)

lemma flatten_length_of_all {α : Type} (k : Nat) :
    ∀ L : List (List α), (∀ c ∈ L, c.length = k) →
      L.flatten.length = L.length * k := by
  intro L
  induction L with
  | nil => intro _; simp
  | cons c cs ih =>
    intro h
    simp only [List.flatten_cons, List.length_append, List.length_cons]
    rw [ih (fun x hx => h x (List.mem_cons_of_mem c hx)),
      h c (List.mem_cons_self c cs), Nat.succ_mul]
    omega

lemma flatten_length_le {α : Type} (k : Nat) :
    ∀ L : List (List α), (∀ c ∈ L, c.length ≤ k) →
      L.flatten.length ≤ L.length * k := by
  intro L
  induction L with
  | nil => intro _; simp
  | cons c cs ih =>
    intro h
    simp only [List.flatten_cons, List.length_append, List.length_cons]
    have h1 := ih (fun x hx => h x (List.mem_cons_of_mem c hx))
    have h2 := h c (List.mem_cons_self c cs)
    have h3 : (c.length + cs.length * k) ≤ k + cs.length * k := by omega
    have h4 : (cs.length + 1) * k = cs.length * k + k := Nat.succ_mul _ _
    omega

lemma encodeBatches_length (E : Nat → List Nat) (batches : List (List PreparedItem)) :
    (encodeBatches E batches).length = batches.length := List.length_map _ _

lemma encodeBatches_flatten (E : Nat → List Nat) (batches : List (List PreparedItem)) :
    (encodeBatches E batches).flatten = batches.flatten.map (encodeItemRecord E) := by
  unfold encodeBatches
  rw [List.map_flatten]

/-- Claim C5: in a pipeline run every split file other than the last
holds exactly save_every times batch_size records, no split file holds
more, and concatenating the split files in order yields exactly one
record per input item, in input order, with the keys passed through
unchanged (so every input key appears exactly once across the output
files). -/
theorem claim_C5_record_counts (E : Nat → List Nat) (batch_size save_every : Nat)
    (items : List PreparedItem) (hs : 1 ≤ save_every) (hb : 1 ≤ batch_size) :
    (∀ i, i + 1 < numSplits save_every (chunkList batch_size items).length →
      ((runPipeline E batch_size save_every items).fs i).length =
        save_every * batch_size) ∧
    (∀ i, ((runPipeline E batch_size save_every items).fs i).length ≤
        save_every * batch_size) ∧
    ((List.range (numSplits save_every (chunkList batch_size items).length)).map
        (runPipeline E batch_size save_every items).fs).flatten =
      items.map (encodeItemRecord E) ∧
    (((List.range (numSplits save_every (chunkList batch_size items).length)).map
        (runPipeline E batch_size save_every items).fs).flatten).map Record.key =
      items.map PreparedItem.key := by
  have hlen : (encodeBatches E (chunkList batch_size items)).length =
      (chunkList batch_size items).length := encodeBatches_length E _
  have hjoin : (encodeBatches E (chunkList batch_size items)).flatten =
      items.map (encodeItemRecord E) := by
    rw [encodeBatches_flatten]
    congr 1
    exact chunkAux_flatten batch_size (by omega) items.length items (Nat.le_refl _)
  have hflat : ((List.range (numSplits save_every
        (chunkList batch_size items).length)).map
        (runPipeline E batch_size save_every items).fs).flatten =
      items.map (encodeItemRecord E) := by
    have h1 := encode_flatten save_every hs (encodeBatches E (chunkList batch_size items))
    rw [hlen] at h1
    exact h1.trans hjoin
  refine ⟨?_, ?_, hflat, ?_⟩
  · intro i hi
    have hle := mul_lt_of_lt_numSplits hs hi
    have hfs : (runPipeline E batch_size save_every items).fs i =
        (((encodeBatches E (chunkList batch_size items)).drop
          (i * save_every)).take save_every).flatten := by
      show (encode_captioned_dataset save_every _ (initState emptyStore)).fs i = _
      rw [encode_fs_empty save_every hs _ i, recordsFor_segment save_every hs]
    rw [hfs]
    have hmemlen : ∀ c ∈ ((encodeBatches E (chunkList batch_size items)).drop
        (i * save_every)).take save_every, c.length = batch_size := by
      intro c hc
      have hmem := mem_segment_dropLast (encodeBatches E (chunkList batch_size items))
        (i * save_every) save_every (by rw [hlen]; omega) c hc
      rw [show (encodeBatches E (chunkList batch_size items)).dropLast =
          (chunkList batch_size items).dropLast.map (List.map (encodeItemRecord E))
        from dropLast_map _ _] at hmem
      obtain ⟨c0, hc0, rfl⟩ := List.mem_map.mp hmem
      rw [List.length_map]
      exact chunkAux_dropLast_length batch_size (by omega) items.length items
        (Nat.le_refl _) c0 hc0
    have hseglen : (((encodeBatches E (chunkList batch_size items)).drop
        (i * save_every)).take save_every).length = save_every := by
      simp only [List.length_take, List.length_drop, hlen]
      exact Nat.min_eq_left (by omega)
    rw [flatten_length_of_all batch_size _ hmemlen, hseglen]
  · intro i
    by_cases hio : i * save_every < (encodeBatches E (chunkList batch_size items)).length
    · have hfs : (runPipeline E batch_size save_every items).fs i =
          (((encodeBatches E (chunkList batch_size items)).drop
            (i * save_every)).take save_every).flatten := by
        show (encode_captioned_dataset save_every _ (initState emptyStore)).fs i = _
        rw [encode_fs_empty save_every hs _ i, recordsFor_segment save_every hs]
      rw [hfs]
      have hmemle : ∀ c ∈ ((encodeBatches E (chunkList batch_size items)).drop
          (i * save_every)).take save_every, c.length ≤ batch_size := by
        intro c hc
        have hmem : c ∈ encodeBatches E (chunkList batch_size items) :=
          (List.drop_sublist _ _).subset
            ((List.take_sublist _ _).subset hc)
        obtain ⟨c0, hc0, rfl⟩ := List.mem_map.mp hmem
        rw [List.length_map]
        exact chunkAux_length_le batch_size items.length items c0 hc0
      have h1 := flatten_length_le batch_size _ hmemle
      have h2 : (((encodeBatches E (chunkList batch_size items)).drop
          (i * save_every)).take save_every).length ≤ save_every := by
        simp only [List.length_take]
        exact Nat.min_le_left _ _
      have h3 := Nat.mul_le_mul_right batch_size h2
      omega
    · have hfs : (runPipeline E batch_size save_every items).fs i = emptyStore i := by
        show (encode_captioned_dataset save_every _ (initState emptyStore)).fs i = _
        exact encode_fs_untouched save_every hs _ emptyStore i (by omega)
      rw [hfs]
      show (0 : Nat) ≤ _
      omega
  · rw [hflat, List.map_map]
    exact List.map_congr_left (fun it _ => rfl)

theorem claim_C5_witness :
    numSplits 2 (chunkList 1 items5).length = 3 ∧
    ((runPipeline (fun x => [x]) 1 2 items5).fs 0).length = 2 ∧
    ((runPipeline (fun x => [x]) 1 2 items5).fs 1).length = 2 ∧
    ((runPipeline (fun x => [x]) 1 2 items5).fs 2).length = 1 ∧
    ((List.range 3).map (runPipeline (fun x => [x]) 1 2 items5).fs).flatten =
      items5.map (encodeItemRecord (fun x => [x])) ∧
    (((List.range 3).map (runPipeline (fun x => [x]) 1 2 items5).fs).flatten).map
        Record.key = items5.map PreparedItem.key := by
  have h := claim_C5_record_counts (fun x => [x]) 1 2 items5 (by decide) (by decide)
  refine ⟨by decide, h.1 0 (by decide), h.1 1 (by decide), by decide, ?_, ?_⟩
  · have h2 := h.2.2.1
    have h3 : numSplits 2 (chunkList 1 items5).length = 3 := by decide
    rw [h3] at h2
    exact h2
  · have h2 := h.2.2.2
    have h3 : numSplits 2 (chunkList 1 items5).length = 3 := by decide
    rw [h3] at h2
    exact h2

/-! ### Caption builder claim -/

/-- Claim C3: create_caption trims both fields, appends a period exactly
when the trimmed title is nonempty and does not already end in a period,
exclamation mark or question mark, and joins the (possibly
period-appended) title and the trimmed description with exactly one
space; when the trimmed description is empty the output therefore ends
in a trailing space. -/
theorem claim_C3_caption_builder (title description : List Char) :
    (pyStrip title = [] →
      create_caption title description = ' ' :: pyStrip description)
  ∧ (∀ c, (pyStrip title).getLast? = some c → sentenceEnd c = false →
      create_caption title description =
        pyStrip title ++ '.' :: ' ' :: pyStrip description)
  ∧ (∀ c, (pyStrip title).getLast? = some c → sentenceEnd c = true →
      create_caption title description = pyStrip title ++ ' ' :: pyStrip description)
  ∧ (pyStrip description = [] →
      (create_caption title description).getLast? = some ' ') := by
  refine ⟨?_, ?_, ?_, ?_⟩
  · intro h
    simp [create_caption, h]
  · intro c hc hend
    simp [create_caption, hc, hend]
  · intro c hc hend
    simp [create_caption, hc, hend]
  · intro h
    unfold create_caption
    simp only [h]
    cases hlast : (pyStrip title).getLast? with
    | none => exact List.getLast?_concat _
    | some c =>
      by_cases hterm : sentenceEnd c <;>
        simp [hterm, List.getLast?_concat]

def exTitle : List Char := "hello world".toList

def exDescr : List Char := "a scene".toList

theorem claim_C3_witness :
    pyStrip exTitle ≠ [] ∧
    create_caption exTitle exDescr = "hello world. a scene".toList := by
  constructor
  · decide
  · have h := (claim_C3_caption_builder exTitle exDescr).2.1 'd' (by decide) (by decide)
    rw [h]
    decide

end DalleMini
